import Mathlib

/-!
Verification of the `counting_ratio` crate (`src/lib.rs`).

The crate has two components:

* `CountingRatio`: a pair of `u64` counters (`matches`, `observations`) with
  observation recording, componentwise arithmetic, a hand-written custom
  `PartialOrd`, a derived `Ord`, an `f64` conversion and a `Display` rendering.
* `BayesianCounter<L, S>`: a two-level `BTreeMap<L, BTreeMap<S, u64>>` of joint
  counts plus a running `total`, with probability queries returning
  `CountingRatio` values and a label ranking.

Counters are `u64` in the source.  Per the spec (§7) integer overflow of the
counters is explicitly undefined by design (caller responsibility; Rust `+` on
`u64` panics in debug builds and is not relied upon to wrap), so counts are
modelled as `ℕ` and the arithmetic laws are stated in unbounded arithmetic.

`BTreeMap` is modelled as a sorted association list: `get` is first-match
lookup and `insert` replaces the entry of an existing key or inserts a new
entry at its ordered position, which agrees with `BTreeMap` semantics on
sorted, duplicate-free lists (the only lists reachable states contain).
-/

/-- `CountingRatio` (src/lib.rs:114-117): raw `matches`/`observations` counters. -/
structure CountingRatio where
  «matches» : ℕ
  observations : ℕ
deriving DecidableEq

namespace CountingRatio

/-- `CountingRatio::new` (src/lib.rs:120). -/
def new : CountingRatio := ⟨0, 0⟩

/-- `CountingRatio::ratio` (src/lib.rs:122-124): direct construction, no validation. -/
def ratio («matches» observations : ℕ) : CountingRatio := ⟨«matches», observations⟩

/-- `CountingRatio::observe` (src/lib.rs:126-131): `observations += 1`, and
`matches += 1` iff the condition is met. -/
def observe (cr : CountingRatio) (condition_met : Bool) : CountingRatio :=
  let cr := { cr with observations := cr.observations + 1 }
  if condition_met then { cr with «matches» := cr.«matches» + 1 } else cr

/-- `CountingRatio::observe_with_prior` (src/lib.rs:133-140): the whole update is
gated on the prior condition. -/
def observe_with_prior (cr : CountingRatio)
    (prior_condition_met posterior_condition_met : Bool) : CountingRatio :=
  if prior_condition_met then
    let cr := { cr with observations := cr.observations + 1 }
    if posterior_condition_met then { cr with «matches» := cr.«matches» + 1 } else cr
  else cr

/-- `CountingRatio::defined` (src/lib.rs:142-144). -/
def defined (cr : CountingRatio) : Bool := decide (0 < cr.observations)

/-- `AddAssign` (src/lib.rs:169-174): componentwise sums. -/
def add_assign (a rhs : CountingRatio) : CountingRatio :=
  ⟨a.«matches» + rhs.«matches», a.observations + rhs.observations⟩

/-- `Add` (src/lib.rs:159-167): copies `self` and delegates to `+=`. -/
def add (a rhs : CountingRatio) : CountingRatio := add_assign a rhs

/-- `MulAssign` (src/lib.rs:186-191): componentwise products. -/
def mul_assign (a rhs : CountingRatio) : CountingRatio :=
  ⟨a.«matches» * rhs.«matches», a.observations * rhs.observations⟩

/-- `Mul` (src/lib.rs:176-184): copies `self` and delegates to `*=`. -/
def mul (a rhs : CountingRatio) : CountingRatio := mul_assign a rhs

/-- `MulAssign<u64>` (src/lib.rs:220-224): scales `matches` only. -/
def mul_assign_u64 (a : CountingRatio) (rhs : ℕ) : CountingRatio :=
  { a with «matches» := a.«matches» * rhs }

/-- `Mul<u64>` (src/lib.rs:193-201): copies `self` and delegates to `*=`. -/
def mul_u64 (a : CountingRatio) (rhs : ℕ) : CountingRatio := mul_assign_u64 a rhs

/-- `DivAssign` (src/lib.rs:213-218): cross multiplication. -/
def div_assign (a rhs : CountingRatio) : CountingRatio :=
  ⟨a.«matches» * rhs.observations, a.observations * rhs.«matches»⟩

/-- `Div` (src/lib.rs:203-211): copies `self` and delegates to `/=`. -/
def div (a rhs : CountingRatio) : CountingRatio := div_assign a rhs

end CountingRatio

/-- Total comparison of a linear order, modelling Rust's `Ord::cmp` on `u64`
and on the generic `Ord` key types. -/
def ordCmp {K : Type} [LinearOrder K] (x y : K) : Ordering :=
  if x < y then .lt else if x = y then .eq else .gt

namespace CountingRatio

/-- The hand-written `PartialOrd::partial_cmp` for `CountingRatio`
(src/lib.rs:226-240).  On `u64` operands `partial_cmp` is `some ∘ cmp`, so the
two `u64` comparisons in the source are modelled as `some (ordCmp _ _)`. -/
def customCmp (a other : CountingRatio) : Option Ordering :=
  if a.«matches» = 0 ∧ other.«matches» = 0 then some .eq
  else if a.«matches» = 0 then some .lt
  else if other.«matches» = 0 then some .gt
  else if a.observations = other.observations then
    some (ordCmp a.observations other.observations)
  else
    some (ordCmp (a.«matches» * other.observations) (other.«matches» * a.observations))

/-- The `Ord` instance of `CountingRatio` comes from `#[derive(Ord)]`
(src/lib.rs:114); Rust's derived `cmp` compares the fields lexicographically in
declaration order: `matches` first, then `observations`. -/
def derivedCmp (a other : CountingRatio) : Ordering :=
  (ordCmp a.«matches» other.«matches»).then (ordCmp a.observations other.observations)

/-- `PartialOrd::lt`'s default method on `CountingRatio`:
`matches!(partial_cmp(other), Some(Less))` over the custom comparator. -/
def customLt (a other : CountingRatio) : Bool :=
  decide (customCmp a other = some Ordering.lt)

end CountingRatio

/-!
Model of the IEEE-754 binary64 (`f64`) values produced by the crate.

A double is NaN, an infinity, or a finite value; a finite value is modelled by
its exact rational value.  Rounding is round-to-nearest, ties-to-even, at 53
significand bits; results whose rounded magnitude reaches `2^1024` overflow to
an infinity.  Signed zeros and subnormal-range rounding are not distinguished;
no value appearing in the claims is in the subnormal range and no operation in
the crate can observe the sign of a zero.
-/

/-- An `f64` value: NaN, `+∞`, `-∞`, or a finite value given by its exact
rational magnitude. -/
inductive F64 where
  | nan : F64
  | pinf : F64
  | ninf : F64
  | val : ℚ → F64
deriving DecidableEq

/-- Round a rational to the nearest integer, ties to even. -/
def rneInt (q : ℚ) : ℤ :=
  let f := ⌊q⌋
  if q - f < 1/2 then f
  else if (1:ℚ)/2 < q - f then f + 1
  else if f % 2 = 0 then f else f + 1

/-- Fuel-based binary logarithm: `log2fuel fuel n = ⌊log₂ n⌋` whenever
`1 ≤ n ≤ fuel`.  (Structurally recursive so that concrete values reduce.) -/
def log2fuel : ℕ → ℕ → ℕ
  | 0, _ => 0
  | fuel + 1, n => if 2 ≤ n then log2fuel fuel (n / 2) + 1 else 0

/-- `⌊log₂ n⌋` for `n ≥ 1` (and `0` for `n = 0`). -/
def nlog2 (n : ℕ) : ℕ := log2fuel n n

/-- Binary exponent of a positive rational: the unique `e` with
`2^e ≤ q < 2^(e+1)`, computed from the binary logarithms of numerator and
denominator (the initial guess is off by at most one). -/
def ratExp2 (q : ℚ) : ℤ :=
  let g : ℤ := (nlog2 q.num.toNat : ℤ) - (nlog2 q.den : ℤ)
  if q < 2 ^ g then g - 1 else g

/-- Round a positive rational to 53 significand bits
(round-to-nearest, ties-to-even), with unbounded exponent range. -/
def f64roundPos (q : ℚ) : ℚ :=
  let s : ℤ := ratExp2 q - 52
  (rneInt (q / 2 ^ s) : ℚ) * 2 ^ s

/-- Round any rational to 53 significand bits. -/
def f64round (q : ℚ) : ℚ :=
  if q = 0 then 0 else if q < 0 then -f64roundPos (-q) else f64roundPos q

/-- Make a finite double from an exact rational result: round, then overflow to
an infinity if the rounded magnitude reaches `2^1024`. -/
def mkF64 (q : ℚ) : F64 :=
  let r := f64round q
  if ((2 ^ 1024 : ℕ) : ℚ) ≤ r then .pinf
  else if r ≤ -((2 ^ 1024 : ℕ) : ℚ) then .ninf
  else .val r

/-- Rust's `u64 as f64` conversion: round to nearest double (every `u64` is far
below the `f64` overflow threshold). -/
def natToF64 (n : ℕ) : F64 := mkF64 (n : ℚ)

namespace F64

/-- IEEE-754 division of doubles.  In particular `x / +0.0` is NaN when `x` is
zero (or NaN) and a correctly-signed infinity when `x` is nonzero. -/
def fdiv : F64 → F64 → F64
  | nan, _ => nan
  | _, nan => nan
  | pinf, pinf => nan
  | pinf, ninf => nan
  | ninf, pinf => nan
  | ninf, ninf => nan
  | pinf, val b => if b < 0 then ninf else pinf
  | ninf, val b => if b < 0 then pinf else ninf
  | val _, pinf => val 0
  | val _, ninf => val 0
  | val a, val b =>
    if b = 0 then (if a = 0 then nan else if a < 0 then ninf else pinf)
    else mkF64 (a / b)

/-- IEEE-754 multiplication of doubles. -/
def fmul : F64 → F64 → F64
  | nan, _ => nan
  | _, nan => nan
  | pinf, pinf => pinf
  | pinf, ninf => ninf
  | ninf, pinf => ninf
  | ninf, ninf => pinf
  | pinf, val b => if b = 0 then nan else if b < 0 then ninf else pinf
  | val a, pinf => if a = 0 then nan else if a < 0 then ninf else pinf
  | ninf, val b => if b = 0 then nan else if b < 0 then pinf else ninf
  | val a, ninf => if a = 0 then nan else if a < 0 then pinf else ninf
  | val a, val b => mkF64 (a * b)

end F64

/-- `impl From<CountingRatio> for f64` (src/lib.rs:147-151):
`cr.«matches» as f64 / cr.observations as f64`. -/
def crToF64 (cr : CountingRatio) : F64 :=
  F64.fdiv (natToF64 cr.«matches») (natToF64 cr.observations)

/-- Rust's `{:.2}` fixed formatting of a nonnegative finite double: the exact
binary value rounded to two decimal digits (ties to even). -/
def fmt2dpNonneg (q : ℚ) : String :=
  let n := (rneInt (q * 100)).toNat
  Nat.repr (n / 100) ++ "." ++
    (if n % 100 < 10 then "0" ++ Nat.repr (n % 100) else Nat.repr (n % 100))

/-- Rust's `{:.2}` fixed formatting of a finite double. -/
def fmt2dp (q : ℚ) : String :=
  if q < 0 then "-" ++ fmt2dpNonneg (-q) else fmt2dpNonneg q

/-- Rust's `{:.2}` formatting of a double (`NaN`/`inf` render as such). -/
def fmtF64 (x : F64) : String :=
  match x with
  | .nan => "NaN"
  | .pinf => "inf"
  | .ninf => "-inf"
  | .val q => fmt2dp q

/-- `impl Display for CountingRatio` (src/lib.rs:153-157):
`"{}/{} ({:.2}%)"` applied to `matches`, `observations` and
`100.0 * f64::from(*self)`. -/
def crDisplay (cr : CountingRatio) : String :=
  Nat.repr cr.«matches» ++ "/" ++ Nat.repr cr.observations ++ " (" ++
    fmtF64 (F64.fmul (F64.val 100) (crToF64 cr)) ++ "%)"

/-!  Sorted association-list model of `BTreeMap`.  -/

/-- `BTreeMap::get`: first-match lookup (the match on a sorted duplicate-free
list). -/
def btGet {K V : Type} [LinearOrder K] (k : K) : List (K × V) → Option V
  | [] => none
  | (q, v) :: rest => if k = q then some v else btGet k rest

/-- `BTreeMap::insert` (also in-place mutation through `get_mut`): replace the
entry of an existing key, or insert a new entry at its ordered position. -/
def btInsert {K V : Type} [LinearOrder K] (k : K) (v : V) :
    List (K × V) → List (K × V)
  | [] => [(k, v)]
  | (q, w) :: rest =>
    if k < q then (k, v) :: (q, w) :: rest
    else if k = q then (k, v) :: rest
    else (q, w) :: btInsert k v rest

/-- `bump!(counter, example)` from the `histogram_macros` dependency: add one
to the count stored under `example`, inserting a count of `1` if absent. -/
def bump {S : Type} [LinearOrder S] (counter : List (S × ℕ)) («example» : S) :
    List (S × ℕ) :=
  match btGet «example» counter with
  | some c => btInsert «example» (c + 1) counter
  | none => btInsert «example» 1 counter

/-- Sum of the stored counts of an inner map: `t.values().sum()`. -/
def innerSum {S : Type} (t : List (S × ℕ)) : ℕ := (t.map Prod.snd).sum

/-- `BayesianCounter` (src/lib.rs:246-249).  The Rust type constrains `L` and
`S` by `Countable = Copy + Ord + Debug`; the order is what the model needs. -/
structure BayesianCounter (L S : Type) where
  counts : List (L × List (S × ℕ))
  total : ℕ

namespace BayesianCounter

variable {L S : Type} [LinearOrder L] [LinearOrder S]

/-- `BayesianCounter::new` (src/lib.rs:252-254). -/
def new : BayesianCounter L S := ⟨[], 0⟩

/-- `BayesianCounter::observe` (src/lib.rs:256-268): bump the existing inner
map of `label`, or insert a fresh one-entry map; then `total += 1`. -/
def observe (bc : BayesianCounter L S) («example» : S) (label : L) :
    BayesianCounter L S :=
  let counts :=
    match btGet label bc.counts with
    | some counter => btInsert label (bump counter «example») bc.counts
    | none => btInsert label (bump [] «example») bc.counts
  ⟨counts, bc.total + 1⟩

/-- `BayesianCounter::count` (src/lib.rs:270-272). -/
def count (bc : BayesianCounter L S) («example» : S) (label : L) : ℕ :=
  match btGet label bc.counts with
  | some t => (btGet «example» t).getD 0
  | none => 0

/-- `BayesianCounter::label_count` (src/lib.rs:274-276). -/
def label_count (bc : BayesianCounter L S) (label : L) : ℕ :=
  match btGet label bc.counts with
  | some t => innerSum t
  | none => 0

/-- `BayesianCounter::example_count` (src/lib.rs:278-280): scan all known
labels. -/
def example_count (bc : BayesianCounter L S) («example» : S) : ℕ :=
  (bc.counts.map (fun p => bc.count «example» p.1)).sum

/-- `BayesianCounter::p_label` (src/lib.rs:282-284). -/
def p_label (bc : BayesianCounter L S) (label : L) : CountingRatio :=
  CountingRatio.ratio (bc.label_count label) bc.total

/-- `BayesianCounter::p_example` (src/lib.rs:286-288). -/
def p_example (bc : BayesianCounter L S) («example» : S) : CountingRatio :=
  CountingRatio.ratio (bc.example_count «example») bc.total

/-- `BayesianCounter::p_example_given_label` (src/lib.rs:290-292). -/
def p_example_given_label (bc : BayesianCounter L S) («example» : S) (label : L) :
    CountingRatio :=
  CountingRatio.ratio (bc.count «example» label) (bc.label_count label)

/-- `BayesianCounter::p_label_given_example` (src/lib.rs:294-296): the literal
operator sequence `p_example_given_label * p_label / p_example`. -/
def p_label_given_example (bc : BayesianCounter L S) (label : L) («example» : S) :
    CountingRatio :=
  CountingRatio.div
    (CountingRatio.mul (bc.p_example_given_label «example» label) (bc.p_label label))
    (bc.p_example «example»)

/-- The comparison `Vec::sort` uses on the `(CountingRatio, L)` ranking pairs.
`slice::sort` for `T: Ord` is a stable merge sort driven entirely by `T::lt`
(`merge_sort(v, |a, b| a.lt(b))`); the derived `Ord` of `CountingRatio` is
never consulted.  The std tuple `PartialOrd::lt` is lexicographic by `!=`:
if the first components are `PartialEq`-unequal (field inequality, the derived
`PartialEq`), compare them with the hand-written custom `partial_cmp`'s `lt`;
otherwise fall through to the labels. -/
def pairLt (a b : CountingRatio × L) : Bool :=
  if a.1 ≠ b.1 then CountingRatio.customLt a.1 b.1 else decide (a.2 < b.2)

/-- One step of the insertion sort `slice::sort` runs on short slices
(`insert_head`): `x` moves right past every `y` with `is_less(y, x)` and is
placed before the first `y` with `¬ is_less(y, x)`, so earlier elements stay
first on ties (stability). -/
def insertPair (x : CountingRatio × L) :
    List (CountingRatio × L) → List (CountingRatio × L)
  | [] => [x]
  | y :: ys => if pairLt y x then y :: insertPair x ys else x :: y :: ys

/-- `Vec::sort` on the ranking pairs.  On slices of at most 20 elements
`slice::sort` performs exactly this right-to-left insertion sort with
`is_less = pairLt`; on longer slices it merges sorted runs, which yields the
same list whenever the comparison is consistent and in any case only ever
puts `b` before an earlier `a` when `pairLt b a`. -/
def sortPairs : List (CountingRatio × L) → List (CountingRatio × L)
  | [] => []
  | x :: xs => insertPair x (sortPairs xs)

/-- `BayesianCounter::label_ranking_for` (src/lib.rs:298-302): pair every known
label with `p_example_given_label(example, label) * label_count(label)`
(the `Mul<u64>` numerator scaling), `sort()`, and keep the labels. -/
def label_ranking_for (bc : BayesianCounter L S) («example» : S) : List L :=
  (sortPairs (bc.counts.map (fun p =>
    (CountingRatio.mul_u64 (bc.p_example_given_label «example» p.1)
      (bc.label_count p.1), p.1)))).map Prod.snd

/-- The ranking value `label_ranking_for` pairs with a label (src/lib.rs:299):
`p_example_given_label(example, label) * label_count(label)`. -/
def rankValue (bc : BayesianCounter L S) («example» : S) (label : L) : CountingRatio :=
  CountingRatio.mul_u64 (bc.p_example_given_label «example» label) (bc.label_count label)

/-- The `BayesianCounter` states reachable from `new` by `observe` calls. -/
inductive Reachable : BayesianCounter L S → Prop
  | new : Reachable new
  | observe (bc : BayesianCounter L S) («example» : S) (label : L) :
      Reachable bc → Reachable (bc.observe «example» label)

/-- Keys strictly increase along the association list (the `BTreeMap`
well-formedness of one level). -/
def keysSorted {K V : Type} [LinearOrder K] (m : List (K × V)) : Prop :=
  List.Pairwise (fun x y => x.1 < y.1) m

/-- Both levels of the two-level mapping are sorted and duplicate-free. -/
def WF (bc : BayesianCounter L S) : Prop :=
  keysSorted bc.counts ∧ ∀ p ∈ bc.counts, keysSorted p.2

/-- Every stored leaf cell holds a count of at least `1`. -/
def CellsPos (bc : BayesianCounter L S) : Prop :=
  ∀ p ∈ bc.counts, ∀ q ∈ p.2, 1 ≤ q.2

/-- Sum of all leaf counts of the whole two-level mapping. -/
def leafSum (counts : List (L × List (S × ℕ))) : ℕ :=
  (counts.map (fun p => innerSum p.2)).sum

/-- Whether a `(label, example)` cell is physically stored in the two-level
mapping. -/
def hasCell (bc : BayesianCounter L S) («example» : S) (label : L) : Bool :=
  match btGet label bc.counts with
  | some t => (btGet «example» t).isSome
  | none => false

end BayesianCounter

/-- Weighted sum of the values of an association list (specialises to
`innerSum` and `leafSum`). -/
def pairSum {K V : Type} (w : V → ℕ) (m : List (K × V)) : ℕ :=
  (m.map (fun x => w x.2)).sum

/-- A concrete counter over labels `{0, 1, 2}` and examples `{0, 1}`:
`observe(0,0)` three times and `observe(1,0)` once (label 0: count 3 of 4),
`observe(0,1)` three times and `observe(1,1)` twice (label 1: count 3 of 5),
`observe(0,2)` once and `observe(1,2)` four times (label 2: count 1 of 5).
The ranking values for example `0` are `12/4`, `15/5` and `5/5`: adjacent
pairs compare equal under the custom comparator (`12·5 = 15·4`; equal
observations), yet `5/5 < 12/4` (`5·4 < 12·5`). -/
def bcC1 : BayesianCounter ℕ ℕ :=
  ((((((((((((((BayesianCounter.new).observe 0 0).observe 0 0).observe 0 0).observe
    1 0).observe 0 1).observe 0 1).observe 0 1).observe 1 1).observe 1 1).observe
    0 2).observe 1 2).observe 1 2).observe 1 2).observe 1 2

set_option maxRecDepth 8000

/-! ### Association-list (`BTreeMap`) lemmas -/

theorem btGet_btInsert_self {K V : Type} [LinearOrder K] (k : K) (v : V)
    (m : List (K × V)) : btGet k (btInsert k v m) = some v := by
  induction m with
  | nil => simp [btInsert, btGet]
  | cons hd tl ih =>
    obtain ⟨q, w⟩ := hd
    by_cases h1 : k < q
    · simp [btInsert, btGet, h1]
    · by_cases h2 : k = q
      · simp [btInsert, btGet, h1, h2]
      · simp [btInsert, btGet, h1, h2, ih]

theorem btGet_btInsert_ne {K V : Type} [LinearOrder K] (k k2 : K) (v : V)
    (m : List (K × V)) (h : k2 ≠ k) :
    btGet k2 (btInsert k v m) = btGet k2 m := by
  induction m with
  | nil => simp [btInsert, btGet, h]
  | cons hd tl ih =>
    obtain ⟨q, w⟩ := hd
    by_cases h1 : k < q
    · simp [btInsert, btGet, h1, h]
    · by_cases h2 : k = q
      · subst h2; simp [btInsert, btGet, h1, h]
      · by_cases h3 : k2 = q
        · simp [btInsert, btGet, h1, h2, h3]
        · simp [btInsert, btGet, h1, h2, h3, ih]

theorem mem_btInsert {K V : Type} [LinearOrder K] (k : K) (v : V)
    (m : List (K × V)) (x : K × V) (hx : x ∈ btInsert k v m) :
    x = (k, v) ∨ x ∈ m := by
  induction m with
  | nil => simpa [btInsert] using hx
  | cons hd tl ih =>
    obtain ⟨q, w⟩ := hd
    by_cases h1 : k < q
    · simp only [btInsert, if_pos h1, List.mem_cons] at hx
      rcases hx with h | h | h
      · exact Or.inl h
      · exact Or.inr (List.mem_cons.mpr (Or.inl h))
      · exact Or.inr (List.mem_cons.mpr (Or.inr h))
    · by_cases h2 : k = q
      · simp only [btInsert, if_neg h1, if_pos h2, List.mem_cons] at hx
        rcases hx with h | h
        · exact Or.inl h
        · exact Or.inr (List.mem_cons.mpr (Or.inr h))
      · simp only [btInsert, if_neg h1, if_neg h2, List.mem_cons] at hx
        rcases hx with h | h
        · exact Or.inr (List.mem_cons.mpr (Or.inl h))
        · rcases ih h with h3 | h3
          · exact Or.inl h3
          · exact Or.inr (List.mem_cons.mpr (Or.inr h3))

theorem btGet_mem {K V : Type} [LinearOrder K] (k : K) (v : V)
    (m : List (K × V)) (h : btGet k m = some v) : (k, v) ∈ m := by
  induction m with
  | nil => simp [btGet] at h
  | cons hd tl ih =>
    obtain ⟨q, w⟩ := hd
    by_cases h1 : k = q
    · have hw : w = v := by simpa [btGet, h1] using h
      subst hw
      exact List.mem_cons.mpr (Or.inl (by rw [h1]))
    · simp only [btGet, if_neg h1] at h
      exact List.mem_cons_of_mem _ (ih h)

theorem keysSorted_btInsert {K V : Type} [LinearOrder K] (k : K) (v : V)
    (m : List (K × V)) (hs : BayesianCounter.keysSorted m) :
    BayesianCounter.keysSorted (btInsert k v m) := by
  induction m with
  | nil => simp [btInsert, BayesianCounter.keysSorted]
  | cons hd tl ih =>
    obtain ⟨q, w⟩ := hd
    rw [BayesianCounter.keysSorted, List.pairwise_cons] at hs
    obtain ⟨hhd, htl⟩ := hs
    by_cases h1 : k < q
    · rw [BayesianCounter.keysSorted, btInsert]
      simp only [if_pos h1]
      refine List.Pairwise.cons ?_ ?_
      · intro x hx
        rcases List.mem_cons.mp hx with h | h
        · subst h; exact h1
        · exact h1.trans (hhd x h)
      · exact List.Pairwise.cons hhd htl
    · by_cases h2 : k = q
      · subst h2
        rw [BayesianCounter.keysSorted, btInsert]
        simp only [if_neg h1, if_pos rfl]
        exact List.Pairwise.cons hhd htl
      · have hqk : q < k := by
          rcases lt_trichotomy k q with h | h | h
          · exact absurd h h1
          · exact absurd h h2
          · exact h
        rw [BayesianCounter.keysSorted, btInsert]
        simp only [if_neg h1, if_neg h2]
        refine List.Pairwise.cons ?_ (ih htl)
        intro x hx
        rcases mem_btInsert k v tl x hx with h | h
        · subst h; exact hqk
        · exact hhd x h

theorem pairSum_btInsert_none {K V : Type} [LinearOrder K] (w : V → ℕ)
    (k : K) (v : V) (m : List (K × V)) (h : btGet k m = none) :
    pairSum w (btInsert k v m) = pairSum w m + w v := by
  induction m with
  | nil => simp [btInsert, pairSum]
  | cons hd tl ih =>
    obtain ⟨q, u⟩ := hd
    have h1 : k ≠ q := by
      intro hc; subst hc; simp [btGet] at h
    have h2 : btGet k tl = none := by
      simpa [btGet, h1] using h
    by_cases h3 : k < q
    · simp only [btInsert, if_pos h3, pairSum, List.map_cons, List.sum_cons]
      omega
    · simp only [btInsert, if_neg h3, if_neg h1, pairSum, List.map_cons, List.sum_cons]
      have := ih h2
      simp only [pairSum] at this
      omega

theorem pairSum_btInsert_some {K V : Type} [LinearOrder K] (w : V → ℕ)
    (k : K) (v a : V) (m : List (K × V)) (hs : BayesianCounter.keysSorted m)
    (h : btGet k m = some a) :
    pairSum w (btInsert k v m) + w a = pairSum w m + w v := by
  induction m with
  | nil => simp [btGet] at h
  | cons hd tl ih =>
    obtain ⟨q, u⟩ := hd
    rw [BayesianCounter.keysSorted, List.pairwise_cons] at hs
    obtain ⟨hhd, htl⟩ := hs
    by_cases h1 : k < q
    · exfalso
      have h2 : k ≠ q := ne_of_lt h1
      have h3 : btGet k tl = some a := by simpa [btGet, h2] using h
      have h4 : (k, a) ∈ tl := btGet_mem k a tl h3
      exact absurd (hhd _ h4) (lt_asymm h1)
    · by_cases h2 : k = q
      · have ha : u = a := by simpa [btGet, h2] using h
        subst ha
        simp only [btInsert, if_neg h1, if_pos h2, pairSum, List.map_cons, List.sum_cons]
        omega
      · have h3 : btGet k tl = some a := by simpa [btGet, h2] using h
        have := ih htl h3
        simp only [btInsert, if_neg h1, if_neg h2, pairSum, List.map_cons, List.sum_cons]
        simp only [pairSum] at this
        omega

theorem innerSum_eq_pairSum {S : Type} (t : List (S × ℕ)) :
    innerSum t = pairSum (fun c => c) t := rfl

theorem leafSum_eq_pairSum {L S : Type} (counts : List (L × List (S × ℕ))) :
    BayesianCounter.leafSum counts = pairSum innerSum counts := rfl

/-! ### `bump` lemmas -/

theorem btGet_bump_self {S : Type} [LinearOrder S] (t : List (S × ℕ)) (e : S) :
    btGet e (bump t e) = some ((btGet e t).getD 0 + 1) := by
  unfold bump
  cases h : btGet e t with
  | some c => simp [h, btGet_btInsert_self]
  | none => simp [h, btGet_btInsert_self]

theorem btGet_bump_ne {S : Type} [LinearOrder S] (t : List (S × ℕ)) (e e2 : S)
    (h : e2 ≠ e) : btGet e2 (bump t e) = btGet e2 t := by
  unfold bump
  cases h2 : btGet e t with
  | some c => simp [btGet_btInsert_ne e e2 _ t h]
  | none => simp [btGet_btInsert_ne e e2 _ t h]

theorem innerSum_bump {S : Type} [LinearOrder S] (t : List (S × ℕ)) (e : S)
    (hs : BayesianCounter.keysSorted t) :
    innerSum (bump t e) = innerSum t + 1 := by
  cases h : btGet e t with
  | some c =>
    have hb : bump t e = btInsert e (c + 1) t := by unfold bump; rw [h]
    rw [hb]
    have := pairSum_btInsert_some (fun c => c) e (c + 1) c t hs h
    simp only [← innerSum_eq_pairSum] at this
    omega
  | none =>
    have hb : bump t e = btInsert e 1 t := by unfold bump; rw [h]
    rw [hb]
    have := pairSum_btInsert_none (fun c => c) e 1 t h
    simp only [← innerSum_eq_pairSum] at this
    omega

theorem keysSorted_bump {S : Type} [LinearOrder S] (t : List (S × ℕ)) (e : S)
    (hs : BayesianCounter.keysSorted t) :
    BayesianCounter.keysSorted (bump t e) := by
  unfold bump
  cases btGet e t with
  | some c => exact keysSorted_btInsert _ _ _ hs
  | none => exact keysSorted_btInsert _ _ _ hs

theorem mem_bump {S : Type} [LinearOrder S] (t : List (S × ℕ)) (e : S)
    (q : S × ℕ) (hq : q ∈ bump t e) :
    (∃ c : ℕ, q = (e, c) ∧ 1 ≤ c) ∨ q ∈ t := by
  unfold bump at hq
  cases h : btGet e t with
  | some c =>
    rw [h] at hq
    rcases mem_btInsert _ _ _ _ hq with h2 | h2
    · exact Or.inl ⟨c + 1, h2, by omega⟩
    · exact Or.inr h2
  | none =>
    rw [h] at hq
    rcases mem_btInsert _ _ _ _ hq with h2 | h2
    · exact Or.inl ⟨1, h2, le_rfl⟩
    · exact Or.inr h2

/-! ### `observe` lemmas and the reachability invariant -/

theorem observe_total {L S : Type} [LinearOrder L] [LinearOrder S]
    (bc : BayesianCounter L S) (e : S) (l : L) :
    (bc.observe e l).total = bc.total + 1 := rfl

theorem observe_counts_some {L S : Type} [LinearOrder L] [LinearOrder S]
    (bc : BayesianCounter L S) (e : S) (l : L) (counter : List (S × ℕ))
    (h : btGet l bc.counts = some counter) :
    (bc.observe e l).counts = btInsert l (bump counter e) bc.counts := by
  unfold BayesianCounter.observe
  rw [h]

theorem observe_counts_none {L S : Type} [LinearOrder L] [LinearOrder S]
    (bc : BayesianCounter L S) (e : S) (l : L)
    (h : btGet l bc.counts = none) :
    (bc.observe e l).counts = btInsert l [(e, 1)] bc.counts := by
  unfold BayesianCounter.observe
  rw [h]
  rfl

theorem count_observe {L S : Type} [LinearOrder L] [LinearOrder S]
    (bc : BayesianCounter L S) (e : S) (l : L) (e2 : S) (l2 : L) :
    (bc.observe e l).count e2 l2 =
      bc.count e2 l2 + (if l2 = l ∧ e2 = e then 1 else 0) := by
  by_cases hl : l2 = l
  · subst hl
    cases h : btGet l2 bc.counts with
    | some counter =>
      have hc := observe_counts_some bc e l2 counter h
      simp only [BayesianCounter.count, hc, btGet_btInsert_self, h]
      by_cases he : e2 = e
      · subst he
        rw [btGet_bump_self]
        simp
      · rw [btGet_bump_ne counter e e2 he]
        simp [he]
    | none =>
      have hc := observe_counts_none bc e l2 h
      simp only [BayesianCounter.count, hc, btGet_btInsert_self, h]
      by_cases he : e2 = e
      · subst he
        simp [btGet]
      · simp [btGet, he]
  · have hneq : l2 ≠ l := hl
    cases h : btGet l bc.counts with
    | some counter =>
      have hc := observe_counts_some bc e l counter h
      simp only [BayesianCounter.count, hc, btGet_btInsert_ne l l2 _ bc.counts hneq]
      simp [hl]
    | none =>
      have hc := observe_counts_none bc e l h
      simp only [BayesianCounter.count, hc, btGet_btInsert_ne l l2 _ bc.counts hneq]
      simp [hl]

theorem reachable_inv {L S : Type} [LinearOrder L] [LinearOrder S]
    (bc : BayesianCounter L S) (h : BayesianCounter.Reachable bc) :
    BayesianCounter.WF bc ∧ bc.total = BayesianCounter.leafSum bc.counts ∧
      BayesianCounter.CellsPos bc := by
  induction h with
  | new =>
    refine ⟨⟨?_, ?_⟩, rfl, ?_⟩
    · exact List.Pairwise.nil
    · intro p hp; simp [BayesianCounter.new] at hp
    · intro p hp; simp [BayesianCounter.new] at hp
  | observe bc e l hr ih =>
    obtain ⟨⟨hout, hin⟩, htot, hpos⟩ := ih
    cases hbt : btGet l bc.counts with
    | some counter =>
      have hmem : (l, counter) ∈ bc.counts := btGet_mem l counter bc.counts hbt
      have hcs : BayesianCounter.keysSorted counter := hin (l, counter) hmem
      have hcounts := observe_counts_some bc e l counter hbt
      refine ⟨⟨?_, ?_⟩, ?_, ?_⟩
      · rw [hcounts]; exact keysSorted_btInsert _ _ _ hout
      · rw [hcounts]
        intro p hp
        rcases mem_btInsert _ _ _ _ hp with h2 | h2
        · subst h2; exact keysSorted_bump counter e hcs
        · exact hin p h2
      · rw [observe_total, hcounts, htot]
        have h1 := pairSum_btInsert_some innerSum l (bump counter e) counter
          bc.counts hout hbt
        have h2 := innerSum_bump counter e hcs
        rw [leafSum_eq_pairSum, leafSum_eq_pairSum] at *
        omega
      · intro p hp q hq
        rw [hcounts] at hp
        rcases mem_btInsert _ _ _ _ hp with h2 | h2
        · subst h2
          rcases mem_bump counter e q hq with ⟨c, hq2, hc⟩ | hq2
          · subst hq2; exact hc
          · exact hpos (l, counter) hmem q hq2
        · exact hpos p h2 q hq
    | none =>
      have hcounts := observe_counts_none bc e l hbt
      refine ⟨⟨?_, ?_⟩, ?_, ?_⟩
      · rw [hcounts]; exact keysSorted_btInsert _ _ _ hout
      · rw [hcounts]
        intro p hp
        rcases mem_btInsert _ _ _ _ hp with h2 | h2
        · subst h2
          exact List.pairwise_singleton _ _
        · exact hin p h2
      · rw [observe_total, hcounts, htot]
        have h1 := pairSum_btInsert_none innerSum l [(e, 1)] bc.counts hbt
        rw [leafSum_eq_pairSum, leafSum_eq_pairSum] at *
        have h2 : innerSum [(e, 1)] = 1 := rfl
        omega
      · intro p hp q hq
        rw [hcounts] at hp
        rcases mem_btInsert _ _ _ _ hp with h2 | h2
        · subst h2
          rcases List.mem_singleton.mp hq with rfl
          exact le_rfl
        · exact hpos p h2 q hq

theorem count_eq_zero_iff {L S : Type} [LinearOrder L] [LinearOrder S]
    (bc : BayesianCounter L S) (hpos : BayesianCounter.CellsPos bc)
    (e : S) (l : L) :
    bc.count e l = 0 ↔ bc.hasCell e l = false := by
  unfold BayesianCounter.count BayesianCounter.hasCell
  cases hbt : btGet l bc.counts with
  | none => simp
  | some t =>
    cases hbe : btGet e t with
    | none => simp [hbe]
    | some c =>
      have hc : 1 ≤ c :=
        hpos (l, t) (btGet_mem l t bc.counts hbt) (e, c) (btGet_mem e c t hbe)
      simp [hbe]
      omega

/-! ### Comparator lemmas -/

theorem ordCmp_swap {K : Type} [LinearOrder K] (x y : K) :
    ordCmp y x = (ordCmp x y).swap := by
  unfold ordCmp
  rcases lt_trichotomy x y with h | h | h
  · rw [if_pos h, if_neg (lt_asymm h), if_neg (ne_of_gt h)]
    rfl
  · subst h
    rw [if_neg (lt_irrefl x), if_pos rfl]
    rfl
  · rw [if_pos h, if_neg (lt_asymm h), if_neg (ne_of_gt h)]
    rfl

theorem ordCmp_self {K : Type} [LinearOrder K] (x : K) : ordCmp x x = .eq := by
  unfold ordCmp
  rw [if_neg (lt_irrefl x), if_pos rfl]

theorem customCmp_isSome (a b : CountingRatio) :
    (CountingRatio.customCmp a b).isSome = true := by
  unfold CountingRatio.customCmp
  split_ifs <;> rfl

theorem customCmp_swap (a b : CountingRatio) :
    CountingRatio.customCmp b a = (CountingRatio.customCmp a b).map Ordering.swap := by
  by_cases ha : a.«matches» = 0 <;> by_cases hb : b.«matches» = 0
  · have e1 : CountingRatio.customCmp a b = some Ordering.eq := by
      unfold CountingRatio.customCmp
      rw [if_pos ⟨ha, hb⟩]
    have e2 : CountingRatio.customCmp b a = some Ordering.eq := by
      unfold CountingRatio.customCmp
      rw [if_pos ⟨hb, ha⟩]
    rw [e1, e2]
    rfl
  · have e1 : CountingRatio.customCmp a b = some Ordering.lt := by
      unfold CountingRatio.customCmp
      rw [if_neg (by tauto), if_pos ha]
    have e2 : CountingRatio.customCmp b a = some Ordering.gt := by
      unfold CountingRatio.customCmp
      rw [if_neg (by tauto), if_neg hb, if_pos ha]
    rw [e1, e2]
    rfl
  · have e1 : CountingRatio.customCmp a b = some Ordering.gt := by
      unfold CountingRatio.customCmp
      rw [if_neg (by tauto), if_neg ha, if_pos hb]
    have e2 : CountingRatio.customCmp b a = some Ordering.lt := by
      unfold CountingRatio.customCmp
      rw [if_neg (by tauto), if_pos hb]
    rw [e1, e2]
    rfl
  · by_cases hobs : a.observations = b.observations
    · have e1 : CountingRatio.customCmp a b = some (ordCmp a.observations b.observations) := by
        unfold CountingRatio.customCmp
        rw [if_neg (by tauto), if_neg ha, if_neg hb, if_pos hobs]
      have e2 : CountingRatio.customCmp b a = some (ordCmp b.observations a.observations) := by
        unfold CountingRatio.customCmp
        rw [if_neg (by tauto), if_neg hb, if_neg ha, if_pos hobs.symm]
      rw [e1, e2, hobs, ordCmp_self]
      rfl
    · have e1 : CountingRatio.customCmp a b =
          some (ordCmp (a.«matches» * b.observations) (b.«matches» * a.observations)) := by
        unfold CountingRatio.customCmp
        rw [if_neg (by tauto), if_neg ha, if_neg hb, if_neg hobs]
      have e2 : CountingRatio.customCmp b a =
          some (ordCmp (b.«matches» * a.observations) (a.«matches» * b.observations)) := by
        unfold CountingRatio.customCmp
        rw [if_neg (by tauto), if_neg hb, if_neg ha, if_neg (fun hc => hobs hc.symm)]
      rw [e1, e2, Option.map_some']
      exact congrArg some (ordCmp_swap _ _)

theorem customCmp_refl (a : CountingRatio) :
    CountingRatio.customCmp a a = some Ordering.eq := by
  unfold CountingRatio.customCmp
  by_cases hm : a.«matches» = 0
  · rw [if_pos ⟨hm, hm⟩]
  · rw [if_neg (by tauto), if_neg hm, if_neg hm, if_pos rfl, ordCmp_self]

theorem customLt_asymm (a b : CountingRatio)
    (h : CountingRatio.customLt a b = true) : CountingRatio.customLt b a = false := by
  have h2 : CountingRatio.customCmp a b = some Ordering.lt := of_decide_eq_true h
  have h3 : CountingRatio.customCmp b a = some Ordering.gt := by
    rw [customCmp_swap a b, h2]
    rfl
  simp [CountingRatio.customLt, h3]

theorem pairLt_asymm {L : Type} [LinearOrder L] (a b : CountingRatio × L)
    (h : BayesianCounter.pairLt a b = true) : BayesianCounter.pairLt b a = false := by
  unfold BayesianCounter.pairLt at h ⊢
  by_cases hf : a.1 = b.1
  · rw [if_neg (not_not_intro hf)] at h
    rw [if_neg (not_not_intro hf.symm)]
    have hlt : a.2 < b.2 := of_decide_eq_true h
    exact decide_eq_false hlt.asymm
  · rw [if_pos hf] at h
    rw [if_pos (Ne.symm hf)]
    exact customLt_asymm _ _ h

theorem pairLt_false_not_lt {L : Type} [LinearOrder L] (p q : CountingRatio × L)
    (h : BayesianCounter.pairLt q p = false) :
    CountingRatio.customCmp q.1 p.1 ≠ some Ordering.lt := by
  by_cases hf : q.1 = p.1
  · rw [hf, customCmp_refl]
    simp
  · unfold BayesianCounter.pairLt at h
    rw [if_pos hf] at h
    unfold CountingRatio.customLt at h
    exact of_decide_eq_false h

theorem insertPair_head {L : Type} [LinearOrder L] (x : CountingRatio × L)
    (l : List (CountingRatio × L)) :
    (BayesianCounter.insertPair x l).head? = some x ∨
      (BayesianCounter.insertPair x l).head? = l.head? := by
  cases l with
  | nil => left; rfl
  | cons y ys =>
    cases hc : BayesianCounter.pairLt y x with
    | true => right; simp [BayesianCounter.insertPair, hc]
    | false => left; simp [BayesianCounter.insertPair, hc]

theorem chain'_insertPair {L : Type} [LinearOrder L] (x : CountingRatio × L)
    (l : List (CountingRatio × L))
    (h : List.Chain' (fun a b => BayesianCounter.pairLt b a = false) l) :
    List.Chain' (fun a b => BayesianCounter.pairLt b a = false)
      (BayesianCounter.insertPair x l) := by
  induction l with
  | nil => simp [BayesianCounter.insertPair]
  | cons y ys ih =>
    rw [List.chain'_cons'] at h
    obtain ⟨hhead, htail⟩ := h
    cases hc : BayesianCounter.pairLt y x with
    | true =>
      have hstep : BayesianCounter.insertPair x (y :: ys) =
          y :: BayesianCounter.insertPair x ys := by
        simp [BayesianCounter.insertPair, hc]
      rw [hstep, List.chain'_cons']
      refine ⟨?_, ih htail⟩
      intro b hb
      rcases insertPair_head x ys with h2 | h2
      · rw [h2] at hb
        have hbx : x = b := by simpa using hb
        rw [← hbx]
        exact pairLt_asymm y x hc
      · rw [h2] at hb
        exact hhead b hb
    | false =>
      have hstep : BayesianCounter.insertPair x (y :: ys) = x :: y :: ys := by
        simp [BayesianCounter.insertPair, hc]
      rw [hstep, List.chain'_cons']
      refine ⟨?_, ?_⟩
      · intro b hb
        have hby : y = b := by simpa using hb
        rw [← hby]
        exact hc
      · rw [List.chain'_cons']
        exact ⟨hhead, htail⟩

theorem chain'_sortPairs {L : Type} [LinearOrder L] (l : List (CountingRatio × L)) :
    List.Chain' (fun a b => BayesianCounter.pairLt b a = false)
      (BayesianCounter.sortPairs l) := by
  induction l with
  | nil => simp [BayesianCounter.sortPairs]
  | cons x xs ih =>
    show List.Chain' (fun a b => BayesianCounter.pairLt b a = false)
      (BayesianCounter.insertPair x (BayesianCounter.sortPairs xs))
    exact chain'_insertPair x _ ih

theorem insertPair_perm {L : Type} [LinearOrder L] (x : CountingRatio × L)
    (l : List (CountingRatio × L)) :
    List.Perm (BayesianCounter.insertPair x l) (x :: l) := by
  induction l with
  | nil => exact List.Perm.refl _
  | cons y ys ih =>
    cases hc : BayesianCounter.pairLt y x with
    | true =>
      have hstep : BayesianCounter.insertPair x (y :: ys) =
          y :: BayesianCounter.insertPair x ys := by
        simp [BayesianCounter.insertPair, hc]
      rw [hstep]
      exact (ih.cons y).trans (List.Perm.swap x y ys)
    | false =>
      have hstep : BayesianCounter.insertPair x (y :: ys) = x :: y :: ys := by
        simp [BayesianCounter.insertPair, hc]
      rw [hstep]

theorem sortPairs_perm {L : Type} [LinearOrder L] (l : List (CountingRatio × L)) :
    List.Perm (BayesianCounter.sortPairs l) l := by
  induction l with
  | nil => exact List.Perm.refl _
  | cons x xs ih =>
    show List.Perm (BayesianCounter.insertPair x (BayesianCounter.sortPairs xs)) (x :: xs)
    exact (insertPair_perm x _).trans (ih.cons x)

theorem chain'_imp_mem {α : Type} {R R2 : α → α → Prop} :
    ∀ l : List α, List.Chain' R l →
      (∀ a ∈ l, ∀ b ∈ l, R a b → R2 a b) → List.Chain' R2 l := by
  intro l
  induction l with
  | nil => intro _ _; simp
  | cons x xs ih =>
    intro h himp
    rw [List.chain'_cons'] at h ⊢
    obtain ⟨hh, ht⟩ := h
    refine ⟨?_, ?_⟩
    · intro b hb
      exact himp x (List.mem_cons_self x xs) b
        (List.mem_cons_of_mem x (List.mem_of_mem_head? hb)) (hh b hb)
    · exact ih ht fun a ha b hb hr =>
        himp a (List.mem_cons_of_mem x ha) b (List.mem_cons_of_mem x hb) hr

/-! ### Binary-logarithm and rounding lemmas -/

theorem log2fuel_bounds : ∀ (fuel n : ℕ), n ≤ fuel → 1 ≤ n →
    2 ^ log2fuel fuel n ≤ n ∧ n < 2 ^ (log2fuel fuel n + 1) := by
  intro fuel
  induction fuel with
  | zero => intro n h1 h2; omega
  | succ fuel ih =>
    intro n hle h1
    by_cases h2 : 2 ≤ n
    · have hm1 : 1 ≤ n / 2 := by omega
      have hm2 : n / 2 ≤ fuel := by omega
      obtain ⟨hlo, hhi⟩ := ih (n / 2) hm2 hm1
      simp only [log2fuel, if_pos h2]
      constructor
      · have hp : 2 ^ (log2fuel fuel (n / 2) + 1) = 2 * 2 ^ log2fuel fuel (n / 2) := by
          ring
        rw [hp]; omega
      · have hp : 2 ^ (log2fuel fuel (n / 2) + 1 + 1) =
            2 * 2 ^ (log2fuel fuel (n / 2) + 1) := by
          ring
        rw [hp]; omega
    · have hn : n = 1 := by omega
      subst hn
      simp [log2fuel, h2]

theorem nlog2_bounds (n : ℕ) (h : 1 ≤ n) :
    2 ^ nlog2 n ≤ n ∧ n < 2 ^ (nlog2 n + 1) :=
  log2fuel_bounds n n le_rfl h

theorem two_zpow_ratExp2_le (q : ℚ) (hq : 0 < q) : (2:ℚ) ^ ratExp2 q ≤ q := by
  have hnum : 0 < q.num := Rat.num_pos.mpr hq
  have hn1 : 1 ≤ q.num.toNat := by omega
  have hd1 : 1 ≤ q.den := q.den_pos
  obtain ⟨ha, _⟩ := nlog2_bounds q.num.toNat hn1
  obtain ⟨_, hb⟩ := nlog2_bounds q.den hd1
  have hq_eq : q = (q.num.toNat : ℚ) / (q.den : ℚ) := by
    have hcast : ((q.num.toNat : ℕ) : ℚ) = ((q.num : ℤ) : ℚ) := by
      exact_mod_cast Int.toNat_of_nonneg hnum.le
    rw [hcast, Rat.num_div_den q]
  have hkey : (2:ℚ) ^ ((nlog2 q.num.toNat : ℤ) - (nlog2 q.den : ℤ) - 1) < q := by
    have hsplit : ((nlog2 q.num.toNat : ℤ) - (nlog2 q.den : ℤ) - 1) =
        (nlog2 q.num.toNat : ℤ) - ((nlog2 q.den : ℤ) + 1) := by ring
    rw [hsplit, zpow_sub₀ (by norm_num : (2:ℚ) ≠ 0)]
    have h2a : (2:ℚ) ^ ((nlog2 q.num.toNat : ℤ)) = ((2 ^ nlog2 q.num.toNat : ℕ) : ℚ) := by
      push_cast
      rw [zpow_natCast]
    have h2b : (2:ℚ) ^ ((nlog2 q.den : ℤ) + 1) = ((2 ^ (nlog2 q.den + 1) : ℕ) : ℚ) := by
      push_cast
      rw [← zpow_natCast]
      push_cast
      ring
    rw [h2a, h2b]
    conv_rhs => rw [hq_eq]
    rw [div_lt_div_iff₀ (by positivity) (by exact_mod_cast hd1)]
    have hmul : (2 ^ nlog2 q.num.toNat) * q.den < q.num.toNat * 2 ^ (nlog2 q.den + 1) := by
      calc (2 ^ nlog2 q.num.toNat) * q.den ≤ q.num.toNat * q.den :=
            Nat.mul_le_mul_right _ ha
        _ < q.num.toNat * 2 ^ (nlog2 q.den + 1) :=
            mul_lt_mul_of_pos_left hb (by omega)
    exact_mod_cast hmul
  unfold ratExp2
  simp only []
  split_ifs with h
  · exact hkey.le
  · exact le_of_not_lt h

theorem rneInt_ge_one (q : ℚ) (h : (1:ℚ) ≤ q) : 1 ≤ rneInt q := by
  have hf : 1 ≤ ⌊q⌋ := by
    rw [Int.le_floor]
    exact_mod_cast h
  unfold rneInt
  simp only []
  split_ifs <;> omega

theorem f64roundPos_pos (q : ℚ) (hq : 0 < q) : 0 < f64roundPos q := by
  unfold f64roundPos
  simp only []
  have hs : (0:ℚ) < 2 ^ (ratExp2 q - 52) := zpow_pos (by norm_num) _
  have h1 : (1:ℚ) ≤ q / 2 ^ (ratExp2 q - 52) := by
    rw [one_le_div hs]
    have hmono : (2:ℚ) ^ (ratExp2 q - 52) ≤ 2 ^ ratExp2 q := by
      apply zpow_le_zpow_right₀
      · norm_num
      · omega
    exact hmono.trans (two_zpow_ratExp2_le q hq)
  have h2 : 1 ≤ rneInt (q / 2 ^ (ratExp2 q - 52)) := rneInt_ge_one _ h1
  have h3 : (0:ℚ) < (rneInt (q / 2 ^ (ratExp2 q - 52)) : ℚ) := by
    exact_mod_cast lt_of_lt_of_le Int.zero_lt_one h2
  exact mul_pos h3 hs

theorem f64round_nat_pos (n : ℕ) (h : 0 < n) : 0 < f64round (n : ℚ) := by
  unfold f64round
  have hn0 : ((n : ℚ) = 0) = False := by
    simp only [eq_iff_iff, iff_false]
    exact_mod_cast h.ne'
  have hnneg : (((n : ℚ) < 0) = False) := by
    simp only [eq_iff_iff, iff_false, not_lt]
    positivity
  simp only [hn0, hnneg, if_false]
  exact f64roundPos_pos _ (by exact_mod_cast h)

theorem natToF64_zero : natToF64 0 = F64.val 0 := by
  have hpos : (0:ℚ) < ((2 ^ 1024 : ℕ) : ℚ) := by positivity
  unfold natToF64 mkF64
  have h0 : f64round ((0:ℕ) : ℚ) = 0 := by simp [f64round]
  rw [h0]
  simp only []
  rw [if_neg (not_le.mpr hpos), if_neg (not_le.mpr (by linarith))]

theorem natToF64_pos (n : ℕ) (h : 0 < n) :
    natToF64 n = F64.pinf ∨ ∃ r : ℚ, 0 < r ∧ natToF64 n = F64.val r := by
  have hpos : (0:ℚ) < ((2 ^ 1024 : ℕ) : ℚ) := by positivity
  unfold natToF64 mkF64
  simp only []
  have hr := f64round_nat_pos n h
  by_cases h1 : ((2 ^ 1024 : ℕ) : ℚ) ≤ f64round ((n:ℕ) : ℚ)
  · left; rw [if_pos h1]
  · right
    refine ⟨f64round ((n:ℕ) : ℚ), hr, ?_⟩
    have h2 : ¬ (f64round ((n:ℕ) : ℚ) ≤ -((2 ^ 1024 : ℕ) : ℚ)) := by
      simp only [not_le]
      linarith
    rw [if_neg h1, if_neg h2]

/-! ### The claims -/

/-- C1 (counterexample): the original claim — the ranking is ascending under
the custom comparator, least likely first — fails on `bcC1`: the code returns
`[0, 1, 2]` (the sort makes no swap because adjacent ranking values compare
custom-equal), yet label 2's ranking value `5/5` is custom-strictly-below
label 0's value `12/4` (cross products `5·4 < 12·5`), so a strictly less
likely label is listed after a more likely one.  An ascending output
(`[2, 0, 1]`) exists and is not returned. -/
theorem claim_C1_counterexample :
    bcC1.label_ranking_for 0 = [0, 1, 2] ∧
    bcC1.rankValue 0 0 = CountingRatio.ratio 12 4 ∧
    bcC1.rankValue 0 1 = CountingRatio.ratio 15 5 ∧
    bcC1.rankValue 0 2 = CountingRatio.ratio 5 5 ∧
    CountingRatio.customCmp (CountingRatio.ratio 5 5) (CountingRatio.ratio 12 4) =
      some Ordering.lt := by
  decide

/-- C1 (amended): `label_ranking_for(example)` returns every stored label
exactly once — a permutation of the outer key list — and in the returned
order no label's ranking value `p_example_given_label(example, l) *
label_count(l)` is custom-strictly-below its immediate predecessor's.
Because the custom comparator is not transitive, adjacent non-descent is all
the sort guarantees: the output need not be globally ascending (see the
counterexample). -/
theorem claim_C1_label_ranking {L S : Type} [LinearOrder L] [LinearOrder S]
    (bc : BayesianCounter L S) (e : S) :
    (bc.label_ranking_for e).Perm (bc.counts.map Prod.fst) ∧
    List.Chain' (fun l1 l2 =>
      CountingRatio.customCmp (bc.rankValue e l2) (bc.rankValue e l1) ≠
        some Ordering.lt) (bc.label_ranking_for e) := by
  constructor
  · have h2 := (sortPairs_perm (bc.counts.map (fun p =>
      (CountingRatio.mul_u64 (bc.p_example_given_label e p.1)
        (bc.label_count p.1), p.1)))).map Prod.snd
    have h3 : ((bc.counts.map (fun p =>
        (CountingRatio.mul_u64 (bc.p_example_given_label e p.1)
          (bc.label_count p.1), p.1))).map Prod.snd) = bc.counts.map Prod.fst := by
      rw [List.map_map]
      rfl
    show List.Perm ((BayesianCounter.sortPairs (bc.counts.map (fun p =>
      (CountingRatio.mul_u64 (bc.p_example_given_label e p.1)
        (bc.label_count p.1), p.1)))).map Prod.snd) (bc.counts.map Prod.fst)
    rw [← h3]
    exact h2
  · have hch := chain'_sortPairs (bc.counts.map (fun p =>
      (CountingRatio.mul_u64 (bc.p_example_given_label e p.1)
        (bc.label_count p.1), p.1)))
    have hperm := sortPairs_perm (bc.counts.map (fun p =>
      (CountingRatio.mul_u64 (bc.p_example_given_label e p.1)
        (bc.label_count p.1), p.1)))
    show List.Chain' (fun l1 l2 =>
      CountingRatio.customCmp (bc.rankValue e l2) (bc.rankValue e l1) ≠
        some Ordering.lt) ((BayesianCounter.sortPairs (bc.counts.map (fun p =>
          (CountingRatio.mul_u64 (bc.p_example_given_label e p.1)
            (bc.label_count p.1), p.1)))).map Prod.snd)
    rw [List.chain'_map]
    refine chain'_imp_mem _ hch ?_
    intro p hp q hq hpq
    have hp1 : p.1 = bc.rankValue e p.2 := by
      rcases List.mem_map.mp (hperm.mem_iff.mp hp) with ⟨r, _, hre⟩
      rw [← hre]
      rfl
    have hq1 : q.1 = bc.rankValue e q.2 := by
      rcases List.mem_map.mp (hperm.mem_iff.mp hq) with ⟨r, _, hre⟩
      rw [← hre]
      rfl
    rw [← hq1, ← hp1]
    exact pairLt_false_not_lt p q hpq

/-- C2 (counterexample): the claim says conversion to `f64` produces NaN for
every ratio with `observations == 0`, including `matches > 0`; but
`ratio(1, 0)` converts to `1.0 / 0.0 = +∞`, not NaN. -/
theorem claim_C2_counterexample :
    crToF64 (CountingRatio.ratio 1 0) = F64.pinf ∧ F64.pinf ≠ F64.nan := by
  constructor
  · with_unfolding_all decide
  · decide

/-- C2 (amended): for every `CountingRatio` with `observations == 0`, the `f64`
conversion yields NaN when `matches == 0` and `+∞` when `matches > 0`. -/
theorem claim_C2_obs_zero_conversion : ∀ cr : CountingRatio, cr.observations = 0 →
    crToF64 cr = if cr.«matches» = 0 then F64.nan else F64.pinf := by
  intro cr h0
  unfold crToF64
  rw [h0, natToF64_zero]
  by_cases hm : cr.«matches» = 0
  · rw [hm, natToF64_zero]
    simp [F64.fdiv]
  · rw [if_neg hm]
    rcases natToF64_pos cr.«matches» (by omega) with h | ⟨r, hr, h⟩
    · rw [h]
      simp [F64.fdiv]
    · rw [h]
      simp [F64.fdiv, hr.ne', not_lt.mpr hr.le]

/-- C2 (witness): the amended statement applied at `ratio(0, 0)`. -/
theorem claim_C2_witness :
    (CountingRatio.ratio 0 0).observations = 0 ∧
    crToF64 (CountingRatio.ratio 0 0) = F64.nan :=
  ⟨rfl, by simpa using claim_C2_obs_zero_conversion (CountingRatio.ratio 0 0) rfl⟩

/-- C3: in every reachable `BayesianCounter` state, `total` equals the sum of
all leaf counts of the two-level mapping, and each `observe(example, label)`
increments exactly the `(label, example)` cell and `total` by one. -/
theorem claim_C3_total_invariant {L S : Type} [LinearOrder L] [LinearOrder S] :
    (∀ bc : BayesianCounter L S, bc.Reachable →
        bc.total = BayesianCounter.leafSum bc.counts) ∧
    (∀ (bc : BayesianCounter L S) (e : S) (l : L),
        (bc.observe e l).total = bc.total + 1 ∧
        ∀ (e2 : S) (l2 : L), (bc.observe e l).count e2 l2 =
          bc.count e2 l2 + (if l2 = l ∧ e2 = e then 1 else 0)) :=
  ⟨fun bc h => (reachable_inv bc h).2.1,
   fun bc e l => ⟨observe_total bc e l, fun e2 l2 => count_observe bc e l e2 l2⟩⟩

/-- C3 (witness): the invariant at the concrete reachable state
`new().observe(0, 0)` over `ℕ` labels and examples. -/
theorem claim_C3_witness :
    BayesianCounter.Reachable ((BayesianCounter.new : BayesianCounter ℕ ℕ).observe 0 0) ∧
    ((BayesianCounter.new : BayesianCounter ℕ ℕ).observe 0 0).total =
      BayesianCounter.leafSum ((BayesianCounter.new : BayesianCounter ℕ ℕ).observe 0 0).counts :=
  ⟨BayesianCounter.Reachable.observe _ 0 0 BayesianCounter.Reachable.new,
   claim_C3_total_invariant.1 _
     (BayesianCounter.Reachable.observe _ 0 0 BayesianCounter.Reachable.new)⟩

/-- C4: `p_label_given_example` is the literal operator sequence
`p_example_given_label * p_label / p_example`, whose raw fields are the
unsimplified products `count·label_count·total` over
`label_count·total·example_count`. -/
theorem claim_C4_bayes_literal_sequence {L S : Type} [LinearOrder L] [LinearOrder S]
    (bc : BayesianCounter L S) (l : L) (e : S) :
    bc.p_label_given_example l e =
      CountingRatio.ratio (bc.count e l * bc.label_count l * bc.total)
        (bc.label_count l * bc.total * bc.example_count e) := rfl

/-- C5 (counterexample): the custom comparator is not transitive, hence not a
strict total order: `1/4 < 2/2` and `2/2 < 5/4` but `1/4` compares equal to
`5/4` (the "equal observations" branch); likewise the induced equality is not
transitive: `1/5 ≈ 2/5` and `2/5 ≈ 4/10` but `1/5 < 4/10`. -/
theorem claim_C5_counterexample :
    CountingRatio.customCmp (CountingRatio.ratio 1 4) (CountingRatio.ratio 2 2) =
      some Ordering.lt ∧
    CountingRatio.customCmp (CountingRatio.ratio 2 2) (CountingRatio.ratio 5 4) =
      some Ordering.lt ∧
    CountingRatio.customCmp (CountingRatio.ratio 1 4) (CountingRatio.ratio 5 4) =
      some Ordering.eq ∧
    CountingRatio.customCmp (CountingRatio.ratio 1 5) (CountingRatio.ratio 2 5) =
      some Ordering.eq ∧
    CountingRatio.customCmp (CountingRatio.ratio 2 5) (CountingRatio.ratio 4 10) =
      some Ordering.eq ∧
    CountingRatio.customCmp (CountingRatio.ratio 1 5) (CountingRatio.ratio 4 10) =
      some Ordering.lt := by
  decide

/-- C5 (amended): the custom comparison is total (always `some`) and
antisymmetric (swapping the arguments swaps the result), but it is not
transitive — neither the induced strict order nor the induced equality — so it
is not a strict total order. -/
theorem claim_C5_total_antisymmetric : ∀ a b : CountingRatio,
    (CountingRatio.customCmp a b).isSome = true ∧
    CountingRatio.customCmp b a = (CountingRatio.customCmp a b).map Ordering.swap :=
  fun a b => ⟨customCmp_isSome a b, customCmp_swap a b⟩

/-- C6: the `Display` rendering is exactly
`"{matches}/{observations} ({percentage:.2}%)"` with
`percentage = 100.0 * f64::from(self)`, on the three instances named by the
spec. -/
theorem claim_C6_display_exactness :
    crDisplay (CountingRatio.ratio 15 100) = "15/100 (15.00%)" ∧
    crDisplay (CountingRatio.ratio 3 8) = "3/8 (37.50%)" ∧
    crDisplay (CountingRatio.ratio 20 120) = "20/120 (16.67%)" := by
  refine ⟨?_, ?_, ?_⟩ <;> with_unfolding_all decide

/-- C7: addition of `CountingRatio`s is componentwise on both fields, with no
fraction reduction. -/
theorem claim_C7_add_componentwise : ∀ a b : CountingRatio,
    (CountingRatio.add a b).«matches» = a.«matches» + b.«matches» ∧
    (CountingRatio.add a b).observations = a.observations + b.observations :=
  fun _ _ => ⟨rfl, rfl⟩

/-- C8: `observe_with_prior(false, p)` changes neither field (the state is
exactly unchanged), and `observe_with_prior(true, p)` behaves exactly like
`observe(p)`. -/
theorem claim_C8_observe_with_prior : ∀ (cr : CountingRatio) (p : Bool),
    (cr.observe_with_prior false p).«matches» = cr.«matches» ∧
    (cr.observe_with_prior false p).observations = cr.observations ∧
    cr.observe_with_prior false p = cr ∧
    cr.observe_with_prior true p = cr.observe p :=
  fun _ _ => ⟨rfl, rfl, rfl, rfl⟩

/-- C9: the custom `PartialOrd` and the derived `Ord` of `CountingRatio`
disagree: `ratio(3,10) < ratio(3,7)` under the custom comparator
(`3·7 < 3·10`), while the derived field-lexicographic comparison orders
`ratio(3,10)` greater (equal `matches`, then `10 > 7`). -/
theorem claim_C9_custom_vs_derived :
    CountingRatio.customCmp (CountingRatio.ratio 3 10) (CountingRatio.ratio 3 7) =
      some Ordering.lt ∧
    CountingRatio.derivedCmp (CountingRatio.ratio 3 10) (CountingRatio.ratio 3 7) =
      Ordering.gt := by
  decide

/-- C10: in every reachable `BayesianCounter` state, every stored
`(label, example)` cell holds a count of at least 1; consequently
`count(example, label) == 0` iff no cell for that pair is stored. -/
theorem claim_C10_cells_positive {L S : Type} [LinearOrder L] [LinearOrder S]
    (bc : BayesianCounter L S) (h : bc.Reachable) :
    BayesianCounter.CellsPos bc ∧
    ∀ (e : S) (l : L), (bc.count e l = 0 ↔ bc.hasCell e l = false) :=
  have hp := (reachable_inv bc h).2.2
  ⟨hp, fun e l => count_eq_zero_iff bc hp e l⟩

/-- C10 (witness): at the reachable state `new().observe(0, 0)` over `ℕ`,
the unobserved pair `(example 1, label 0)` has count 0 and no stored cell. -/
theorem claim_C10_witness :
    BayesianCounter.Reachable ((BayesianCounter.new : BayesianCounter ℕ ℕ).observe 0 0) ∧
    (((BayesianCounter.new : BayesianCounter ℕ ℕ).observe 0 0).count 1 0 = 0 ↔
      ((BayesianCounter.new : BayesianCounter ℕ ℕ).observe 0 0).hasCell 1 0 = false) :=
  ⟨BayesianCounter.Reachable.observe _ 0 0 BayesianCounter.Reachable.new,
   (claim_C10_cells_positive _
     (BayesianCounter.Reachable.observe _ 0 0 BayesianCounter.Reachable.new)).2 1 0⟩
